import Mathlib

/-!
Verification of the step-sequencer pattern compiler and dual-target event
codec (`src/unnamed/part_000`).

The development shallowly embeds the algorithmic core of the page component:
the per-cell pattern store (`toggleCell`), the event extractor
(`extractTrackEvents`, scanning each row for maximal runs of active cells),
the playback-setup voice/part allocation loop (`setupPlayback`) and the MIDI
export encoder (`handleExportMidi`: sub-event expansion, tick sort with its
off-before-on tie break, and delta-time emission to the external writer).

JavaScript numbers used for velocities are embedded as rationals; step and
tick counts are naturals; MIDI deltas are integers.
-/

namespace Sequencer

/-- A grid cell of a track pattern: `{ active, velocity }`.  `velocity` is
optional because the source guards every read with `cell.velocity ?? 0.8`. -/
structure Cell where
  active : Bool
  velocity : Option ℚ
deriving DecidableEq, Repr

/-- Default cell used for out-of-range reads of a row (inactive). -/
def cellDefault : Cell := { active := false, velocity := none }

/-- A track pattern: rows (one per pitch label) of cells. -/
abbrev TrackPattern := List (List Cell)

/-- A canonical sequencer event, as produced by `extractTrackEvents`. -/
structure SequencerEvent where
  step : ℕ
  durationSteps : ℕ
  note : String
  velocity : ℚ
deriving DecidableEq, Repr

/-- Modelled from the spec: the `NOTE_NAMES` pitch-label table lives in the
module `@/lib/music`, which is not part of the sources; the spec only shows
that each grid row carries a pitch label such as "C4" or "F#3".  We model one
representative label per row, high to low. -/
def NOTE_NAMES : List String := ["C5", "B4", "A4", "G4", "F4", "E4", "D4", "C4"]

/-- `activeAt row i` reads the `active` flag of cell `i` of a row, `false`
when `i` is out of range (matching the source's bounds-guarded reads). -/
def activeAt (row : List Cell) (i : ℕ) : Bool :=
  (row.getD i cellDefault).active

/-- Length of the leading run of active cells of a list: the inner
`while (... row[step + length].active) length += 1` loop of
`extractTrackEvents`, counting from the cell after the run's first one. -/
def takeActiveLen : List Cell → ℕ
  | [] => 0
  | cell :: rest => if cell.active then takeActiveLen rest + 1 else 0

/-- The per-row scan of `extractTrackEvents`: starting at absolute step
`step`, skip inactive cells; at an active cell emit one event for the whole
run (duration `1 +` the following active cells, velocity
`cell.velocity ?? 0.8`) and resume after the run. -/
def scanRow (note : String) : List Cell → ℕ → List SequencerEvent
  | [], _ => []
  | cell :: rest, step =>
    if cell.active then
      { step := step, durationSteps := 1 + takeActiveLen rest, note := note,
        velocity := cell.velocity.getD 0.8 } ::
        scanRow note (rest.drop (takeActiveLen rest))
          (step + (1 + takeActiveLen rest))
    else
      scanRow note rest (step + 1)
termination_by row _ => row.length
decreasing_by
  all_goals simp only [List.length_drop, List.length_cons]; omega

/-- `extractTrackEvents` compiles a pattern into the canonical event list:
each row is scanned left to right from step 0, and the per-row event lists
are concatenated in row order (the source pushes into one `events` array
inside `pattern.forEach`). -/
def extractTrackEvents (pattern : TrackPattern) : List SequencerEvent :=
  (pattern.mapIdx fun rowIndex row =>
    scanRow (NOTE_NAMES.getD rowIndex "") row 0).flatten

section ExtractorLemmas

theorem activeAt_nil (i : ℕ) : activeAt [] i = false := by
  simp [activeAt, cellDefault]

theorem activeAt_cons_zero (c : Cell) (cs : List Cell) :
    activeAt (c :: cs) 0 = c.active := rfl

theorem activeAt_cons_succ (c : Cell) (cs : List Cell) (i : ℕ) :
    activeAt (c :: cs) (i + 1) = activeAt cs i := rfl

theorem getD_drop (l : List α) (n i : ℕ) (d : α) :
    (l.drop n).getD i d = l.getD (n + i) d := by
  induction n generalizing l with
  | zero => simp
  | succ n ih =>
    cases l with
    | nil => simp
    | cons c cs =>
      rw [List.drop_succ_cons, ih, Nat.succ_add, List.getD_cons_succ]

theorem activeAt_drop (l : List Cell) (n i : ℕ) :
    activeAt (l.drop n) i = activeAt l (n + i) := by
  simp [activeAt, getD_drop]

theorem activeAt_lt_takeActiveLen (l : List Cell) (i : ℕ)
    (h : i < takeActiveLen l) : activeAt l i = true := by
  induction l generalizing i with
  | nil => simp [takeActiveLen] at h
  | cons c cs ih =>
    by_cases hc : c.active
    · cases i with
      | zero => simp [activeAt_cons_zero, hc]
      | succ i =>
        rw [activeAt_cons_succ]
        apply ih
        simp [takeActiveLen, hc] at h
        omega
    · simp [takeActiveLen, hc] at h

theorem activeAt_takeActiveLen (l : List Cell) :
    activeAt l (takeActiveLen l) = false := by
  induction l with
  | nil => simp [takeActiveLen, activeAt_nil]
  | cons c cs ih =>
    by_cases hc : c.active
    · simp [takeActiveLen, hc, activeAt_cons_succ, ih]
    · simp [takeActiveLen, hc, activeAt_cons_zero, Bool.eq_false_iff.mpr hc]

theorem takeActiveLen_eq (l : List Cell) (n : ℕ)
    (h1 : ∀ m, m < n → activeAt l m = true) (h2 : activeAt l n = false) :
    takeActiveLen l = n := by
  induction l generalizing n with
  | nil =>
    cases n with
    | zero => rfl
    | succ n => simpa [activeAt_nil] using h1 0 (by omega)
  | cons c cs ih =>
    cases n with
    | zero =>
      rw [activeAt_cons_zero] at h2
      simp [takeActiveLen, h2]
    | succ n =>
      have hc : c.active = true := by
        simpa [activeAt_cons_zero] using h1 0 (by omega)
      rw [takeActiveLen, if_pos hc, ih n
        (fun m hm => by simpa [activeAt_cons_succ] using h1 (m + 1) (by omega))
        (by simpa [activeAt_cons_succ] using h2)]

theorem scanRow_nil (note : String) (step : ℕ) :
    scanRow note [] step = [] := by
  rw [scanRow]

theorem scanRow_cons (note : String) (cell : Cell) (rest : List Cell)
    (step : ℕ) :
    scanRow note (cell :: rest) step =
      if cell.active then
        { step := step, durationSteps := 1 + takeActiveLen rest, note := note,
          velocity := cell.velocity.getD 0.8 } ::
          scanRow note (rest.drop (takeActiveLen rest))
            (step + (1 + takeActiveLen rest))
      else
        scanRow note rest (step + 1) := by
  rw [scanRow]

theorem scanRow_rec (motive : List Cell → ℕ → Prop)
    (hnil : ∀ s, motive [] s)
    (hactive : ∀ cell rest s, cell.active = true →
      motive (rest.drop (takeActiveLen rest)) (s + (1 + takeActiveLen rest)) →
      motive (cell :: rest) s)
    (hinactive : ∀ cell rest s, cell.active = false →
      motive rest (s + 1) → motive (cell :: rest) s) :
    ∀ row s, motive row s := by
  have main : ∀ n (row : List Cell), row.length ≤ n → ∀ s, motive row s := by
    intro n
    induction n with
    | zero =>
      intro row hrow s
      have hr : row = [] := List.eq_nil_of_length_eq_zero (Nat.le_zero.mp hrow)
      exact hr ▸ hnil s
    | succ n ih =>
      intro row hrow s
      cases row with
      | nil => exact hnil s
      | cons cell rest =>
        simp only [List.length_cons, Nat.succ_le_succ_iff] at hrow
        by_cases hc : cell.active
        · exact hactive cell rest s hc
            (ih _ (by simp only [List.length_drop]; omega) _)
        · exact hinactive cell rest s (by simpa using hc) (ih rest hrow _)
  exact fun row s => main row.length row le_rfl s

theorem scanRow_step_ge (note : String) (row : List Cell) (s : ℕ) :
    ∀ e ∈ scanRow note row s, s ≤ e.step := by
  refine scanRow_rec
    (motive := fun row s => ∀ e ∈ scanRow note row s, s ≤ e.step) ?_ ?_ ?_ row s
  · intro s e he
    rw [scanRow_nil] at he
    cases he
  · intro cell rest s hc ih e he
    rw [scanRow_cons, if_pos hc] at he
    rcases List.mem_cons.mp he with he | he
    · simp [he]
    · have := ih e he
      omega
  · intro cell rest s hc ih e he
    rw [scanRow_cons, if_neg (by simp [hc])] at he
    have := ih e he
    omega

theorem scanRow_dur_pos (note : String) (row : List Cell) (s : ℕ) :
    ∀ e ∈ scanRow note row s, 1 ≤ e.durationSteps := by
  refine scanRow_rec
    (motive := fun row s => ∀ e ∈ scanRow note row s, 1 ≤ e.durationSteps)
    ?_ ?_ ?_ row s
  · intro s e he
    rw [scanRow_nil] at he
    cases he
  · intro cell rest s hc ih e he
    rw [scanRow_cons, if_pos hc] at he
    rcases List.mem_cons.mp he with he | he
    · simp [he]
    · exact ih e he
  · intro cell rest s hc ih e he
    rw [scanRow_cons, if_neg (by simp [hc])] at he
    exact ih e he

theorem scanRow_pairwise (note : String) (row : List Cell) (s : ℕ) :
    (scanRow note row s).Pairwise
      (fun a b => a.step + a.durationSteps ≤ b.step) := by
  refine scanRow_rec
    (motive := fun row s => (scanRow note row s).Pairwise
      (fun a b => a.step + a.durationSteps ≤ b.step)) ?_ ?_ ?_ row s
  · intro s
    rw [scanRow_nil]
    exact List.Pairwise.nil
  · intro cell rest s hc ih
    rw [scanRow_cons, if_pos hc, List.pairwise_cons]
    refine ⟨fun b hb => ?_, ih⟩
    have := scanRow_step_ge note (rest.drop (takeActiveLen rest))
      (s + (1 + takeActiveLen rest)) b hb
    simp only
    omega
  · intro cell rest s hc ih
    rw [scanRow_cons, if_neg (by simp [hc])]
    exact ih

theorem scanRow_velocity (note : String) (row : List Cell) (s : ℕ) :
    ∀ e ∈ scanRow note row s, s ≤ e.step ∧
      activeAt row (e.step - s) = true ∧
      e.velocity = ((row.getD (e.step - s) cellDefault).velocity).getD 0.8 := by
  refine scanRow_rec
    (motive := fun row s => ∀ e ∈ scanRow note row s, s ≤ e.step ∧
      activeAt row (e.step - s) = true ∧
      e.velocity = ((row.getD (e.step - s) cellDefault).velocity).getD 0.8)
    ?_ ?_ ?_ row s
  · intro s e he
    rw [scanRow_nil] at he
    cases he
  · intro cell rest s hc ih e he
    rw [scanRow_cons, if_pos hc] at he
    rcases List.mem_cons.mp he with he | he
    · subst he
      refine ⟨le_rfl, ?_, ?_⟩
      · simpa [activeAt_cons_zero]
      · simp
    · obtain ⟨hs, hact, hvel⟩ := ih e he
      have hstep : s ≤ e.step := by omega
      refine ⟨hstep, ?_, ?_⟩
      · rw [activeAt_drop] at hact
        have : e.step - s =
            (takeActiveLen rest + (e.step - (s + (1 + takeActiveLen rest)))) + 1 := by
          omega
        rw [this, activeAt_cons_succ]
        exact hact
      · rw [getD_drop] at hvel
        have : e.step - s =
            (takeActiveLen rest + (e.step - (s + (1 + takeActiveLen rest)))) + 1 := by
          omega
        rw [this, List.getD_cons_succ]
        exact hvel
  · intro cell rest s hc ih e he
    rw [scanRow_cons, if_neg (by simp [hc])] at he
    obtain ⟨hs, hact, hvel⟩ := ih e he
    have hstep : s ≤ e.step := by omega
    have hidx : e.step - s = (e.step - (s + 1)) + 1 := by omega
    refine ⟨hstep, ?_, ?_⟩
    · rw [hidx, activeAt_cons_succ]
      exact hact
    · rw [hidx, List.getD_cons_succ]
      exact hvel

theorem mapIdx_eq_range_map (l : List α) (f : ℕ → α → β) (d : α) :
    l.mapIdx f = (List.range l.length).map fun i => f i (l.getD i d) := by
  induction l generalizing f with
  | nil => simp
  | cons a as ih =>
    rw [List.mapIdx_cons, List.length_cons, List.range_succ_eq_map]
    simp only [List.map_cons, List.getD_cons_zero, List.map_map]
    congr 1
    rw [ih (fun i => f (i + 1))]
    congr 1

theorem mem_extractTrackEvents (p : TrackPattern) (e : SequencerEvent)
    (h : e ∈ extractTrackEvents p) :
    ∃ rowIndex, rowIndex < p.length ∧
      e ∈ scanRow (NOTE_NAMES.getD rowIndex "") (p.getD rowIndex []) 0 := by
  rw [extractTrackEvents, mapIdx_eq_range_map _ _ []] at h
  rw [List.mem_flatten] at h
  obtain ⟨L, hL, heL⟩ := h
  rw [List.mem_map] at hL
  obtain ⟨i, hi, hLi⟩ := hL
  exact ⟨i, List.mem_range.mp hi, hLi ▸ heL⟩

/-- The spec's notion of a maximal run of contiguous active cells: length at
least one, every cell of the run active, the cell just after the run inactive
(or past the end of the row), and the run not preceded by an active cell. -/
def MaxRunAt (row : List Cell) (s l : ℕ) : Prop :=
  1 ≤ l ∧ (∀ i, i < l → activeAt row (s + i) = true) ∧
    activeAt row (s + l) = false ∧ (s = 0 ∨ activeAt row (s - 1) = false)

instance (row : List Cell) (s l : ℕ) : Decidable (MaxRunAt row s l) := by
  unfold MaxRunAt
  infer_instance

theorem maxRunAt_drop_of (row : List Cell) (n j l : ℕ)
    (h : MaxRunAt row (n + j) l) : MaxRunAt (row.drop n) j l := by
  obtain ⟨hl, hact, hend, hleft⟩ := h
  refine ⟨hl, ?_, ?_, ?_⟩
  · intro i hi
    rw [activeAt_drop]
    rw [← Nat.add_assoc]
    exact hact i hi
  · rw [activeAt_drop, ← Nat.add_assoc]
    exact hend
  · cases j with
    | zero => exact Or.inl rfl
    | succ j =>
      refine Or.inr ?_
      rw [activeAt_drop]
      rcases hleft with hleft | hleft
      · omega
      · have : n + (j + 1 - 1) = n + (j + 1) - 1 := by omega
        rw [this]
        exact hleft

theorem maxRunAt_of_drop (row : List Cell) (n j l : ℕ) (hj : 1 ≤ j)
    (h : MaxRunAt (row.drop n) j l) : MaxRunAt row (n + j) l := by
  obtain ⟨hl, hact, hend, hleft⟩ := h
  refine ⟨hl, ?_, ?_, Or.inr ?_⟩
  · intro i hi
    have := hact i hi
    rw [activeAt_drop, ← Nat.add_assoc] at this
    exact this
  · have := hend
    rw [activeAt_drop, ← Nat.add_assoc] at this
    exact this
  · rcases hleft with hleft | hleft
    · omega
    · rw [activeAt_drop] at hleft
      have : n + (j - 1) = n + j - 1 := by omega
      rw [this] at hleft
      exact hleft

theorem maxRunAt_cons_lift (cell : Cell) (rest : List Cell) (j l : ℕ)
    (hcell : activeAt (cell :: rest) j = false) (h : MaxRunAt rest j l) :
    MaxRunAt (cell :: rest) (j + 1) l := by
  obtain ⟨hl, hact, hend, _⟩ := h
  refine ⟨hl, ?_, ?_, Or.inr ?_⟩
  · intro i hi
    have : j + 1 + i = (j + i) + 1 := by omega
    rw [this, activeAt_cons_succ]
    exact hact i hi
  · have : j + 1 + l = (j + l) + 1 := by omega
    rw [this, activeAt_cons_succ]
    exact hend
  · simpa using hcell

theorem maxRunAt_head (cell : Cell) (rest : List Cell)
    (hc : cell.active = true) :
    MaxRunAt (cell :: rest) 0 (1 + takeActiveLen rest) := by
  refine ⟨by omega, ?_, ?_, Or.inl rfl⟩
  · intro i hi
    cases i with
    | zero => simpa [activeAt_cons_zero]
    | succ i =>
      rw [Nat.zero_add, activeAt_cons_succ]
      exact activeAt_lt_takeActiveLen rest i (by omega)
  · rw [Nat.zero_add, Nat.add_comm, activeAt_cons_succ]
    exact activeAt_takeActiveLen rest

theorem maxRunAt_head_len (cell : Cell) (rest : List Cell) (l : ℕ)
    (_hc : cell.active = true) (h : MaxRunAt (cell :: rest) 0 l) :
    l = 1 + takeActiveLen rest := by
  obtain ⟨hl, hact, hend, _⟩ := h
  have hk : takeActiveLen rest = l - 1 := by
    apply takeActiveLen_eq
    · intro m hm
      have := hact (m + 1) (by omega)
      rw [Nat.zero_add, activeAt_cons_succ] at this
      exact this
    · have : l = (l - 1) + 1 := by omega
      rw [Nat.zero_add] at hend
      rw [this, activeAt_cons_succ] at hend
      exact hend
  omega

theorem not_maxRunAt_drop_zero (rest : List Cell) (l : ℕ) :
    ¬ MaxRunAt (rest.drop (takeActiveLen rest)) 0 l := by
  rintro ⟨hl, hact, _, _⟩
  have := hact 0 (by omega)
  rw [Nat.zero_add, activeAt_drop, Nat.add_zero] at this
  rw [activeAt_takeActiveLen] at this
  exact absurd this (by simp)

/-- Membership characterization of the row scan: the `(step, durationSteps)`
pairs produced by `scanRow` starting at absolute step `s` are exactly the
maximal runs of the scanned row, shifted by `s`. -/
theorem scanRow_mem_iff (note : String) (row : List Cell) (s : ℕ)
    (p l : ℕ) :
    (p, l) ∈ (scanRow note row s).map (fun e => (e.step, e.durationSteps)) ↔
      ∃ j, p = s + j ∧ MaxRunAt row j l := by
  refine scanRow_rec (motive := fun row s => ∀ p l,
    (p, l) ∈ (scanRow note row s).map (fun e => (e.step, e.durationSteps)) ↔
      ∃ j, p = s + j ∧ MaxRunAt row j l) ?_ ?_ ?_ row s p l
  · intro s p l
    rw [scanRow_nil]
    simp only [List.map_nil, List.not_mem_nil, false_iff]
    rintro ⟨j, _, hl, hact, _, _⟩
    have := hact 0 hl
    rw [Nat.add_zero, activeAt_nil] at this
    exact absurd this (by simp)
  · intro cell rest s hc ih p l
    rw [scanRow_cons, if_pos hc]
    rw [List.map_cons, List.mem_cons, ih]
    dsimp only
    constructor
    · rintro (hpl | ⟨j', hp, hrun⟩)
      · rw [Prod.mk.injEq] at hpl
        exact ⟨0, by omega, by
          rw [show l = 1 + takeActiveLen rest from hpl.2]
          exact maxRunAt_head cell rest hc⟩
      · have hj' : 1 ≤ j' := by
          rcases Nat.eq_zero_or_pos j' with h0 | h1
          · exact absurd (h0 ▸ hrun) (not_maxRunAt_drop_zero rest l)
          · exact h1
        have h1 : MaxRunAt rest (takeActiveLen rest + j') l :=
          maxRunAt_of_drop rest (takeActiveLen rest) j' l hj' hrun
        have h2 : MaxRunAt (cell :: rest) (takeActiveLen rest + j' + 1) l :=
          maxRunAt_cons_lift cell rest (takeActiveLen rest + j') l
            (by
              obtain ⟨_, _, _, hleft⟩ := hrun
              rcases hleft with h0 | hleft
              · omega
              · rw [activeAt_drop] at hleft
                have heq : takeActiveLen rest + j' =
                    (takeActiveLen rest + (j' - 1)) + 1 := by omega
                rw [heq, activeAt_cons_succ]
                exact hleft) h1
        exact ⟨takeActiveLen rest + j' + 1, by omega, h2⟩
    · rintro ⟨j, hp, hrun⟩
      cases j with
      | zero =>
        left
        rw [Prod.mk.injEq]
        exact ⟨by omega, maxRunAt_head_len cell rest l hc hrun⟩
      | succ j =>
        right
        have hrest : MaxRunAt rest j l :=
          maxRunAt_drop_of (cell :: rest) 1 j l (by simpa [Nat.add_comm] using hrun)
        have hjk : takeActiveLen rest + 1 ≤ j := by
          obtain ⟨hl, hact, hend, hleft⟩ := hrun
          have hj0 : activeAt (cell :: rest) (j + 1) = true := by
            simpa using hact 0 (by omega)
          rw [activeAt_cons_succ] at hj0
          have hleft' : activeAt (cell :: rest) j = false := by
            rcases hleft with h | h
            · omega
            · simpa using h
          cases j with
          | zero =>
            rw [activeAt_cons_zero] at hleft'
            rw [hc] at hleft'
            cases hleft'
          | succ m =>
            rw [activeAt_cons_succ] at hleft'
            by_contra hcon
            have hm : m < takeActiveLen rest := by omega
            rw [activeAt_lt_takeActiveLen rest m hm] at hleft'
            cases hleft'
        have hdrop : MaxRunAt (rest.drop (takeActiveLen rest))
            (j - takeActiveLen rest) l := by
          have := maxRunAt_drop_of rest (takeActiveLen rest)
            (j - takeActiveLen rest) l
            (by
              have heq : takeActiveLen rest + (j - takeActiveLen rest) = j := by
                omega
              rw [heq]
              exact hrest)
          exact this
        exact ⟨j - takeActiveLen rest, by omega, hdrop⟩
  · intro cell rest s hc ih p l
    rw [scanRow_cons, if_neg (by simp [hc])]
    rw [ih]
    constructor
    · rintro ⟨j', hp, hrun⟩
      refine ⟨j' + 1, by omega, ?_⟩
      apply maxRunAt_cons_lift cell rest j' l ?_ hrun
      cases j' with
      | zero =>
        rw [activeAt_cons_zero]
        exact hc
      | succ m =>
        rw [activeAt_cons_succ]
        obtain ⟨_, _, _, hleft⟩ := hrun
        rcases hleft with h | h
        · omega
        · simpa using h
    · rintro ⟨j, hp, hrun⟩
      cases j with
      | zero =>
        obtain ⟨hl, hact, _, _⟩ := hrun
        have := hact 0 hl
        rw [Nat.add_zero, activeAt_cons_zero, hc] at this
        cases this
      | succ j =>
        refine ⟨j, by omega, ?_⟩
        exact maxRunAt_drop_of (cell :: rest) 1 j l
          (by simpa [Nat.add_comm] using hrun)

end ExtractorLemmas

/-- `toggleCell` on a single pattern (the per-track body of the source's
`setTracks` update): every cell is mapped; the cell at `(row, step)` gets
`active := forceState ?? !cell.active` and
`velocity := nextActive ? (cell.velocity ?? 0.8) : (cell.velocity ?? 0.8)`;
all other cells are returned unchanged. -/
def toggleCell (pattern : TrackPattern) (row step : ℕ)
    (forceState : Option Bool) : TrackPattern :=
  pattern.mapIdx fun rowIdx noteRow =>
    noteRow.mapIdx fun stepIdx cell =>
      if rowIdx = row ∧ stepIdx = step then
        { cell with
          active := forceState.getD (!cell.active),
          velocity := some (if forceState.getD (!cell.active) then
            cell.velocity.getD 0.8 else cell.velocity.getD 0.8) }
      else cell

/-- A track as held in component state (rendering-irrelevant fields kept). -/
structure TrackState where
  id : String
  name : String
  instrument : String
  pattern : TrackPattern
  volume : ℚ
  muted : Bool
deriving DecidableEq, Repr

/-- The allocation effect of the `tracks.forEach` loop of `setupPlayback`:
`synths` records (in order) the ids of tracks for which a synthesizer voice
was built and stored, `parts` records the event payloads of the scheduled
`Tone.Part` units. -/
structure PlaybackAlloc where
  synths : List String
  parts : List (List SequencerEvent)
deriving DecidableEq, Repr

/-- The per-track body of the `setupPlayback` loop: a muted track is skipped
outright (`if (track.muted) return`); otherwise a voice is built and
registered under the track's id, events are extracted, and the early return
`if (!events.length) return` leaves the voice registered but schedules no
part; otherwise a part holding the events is also pushed. -/
def setupPlaybackStep (st : PlaybackAlloc) (track : TrackState) :
    PlaybackAlloc :=
  if track.muted then st
  else if (extractTrackEvents track.pattern).isEmpty then
    { st with synths := st.synths ++ [track.id] }
  else
    { st with
      synths := st.synths ++ [track.id],
      parts := st.parts ++ [extractTrackEvents track.pattern] }

/-- The voice/part allocation performed by `setupPlayback` over the track
list (lines 312-345 of the source), starting from empty maps. -/
def setupPlaybackAlloc (tracks : List TrackState) : PlaybackAlloc :=
  tracks.foldl setupPlaybackStep { synths := [], parts := [] }

/-- A MIDI sub-event type: note-on or note-off. -/
inductive SubType where
  | on : SubType
  | off : SubType
deriving DecidableEq, Repr

/-- A tick-domain sub-event of the MIDI encoder. -/
structure MidiSubEvent where
  tick : ℕ
  type : SubType
  note : String
  velocity : ℤ
deriving DecidableEq, Repr

/-- `const ticksPerBeat = 128`. -/
def ticksPerBeat : ℕ := 128

/-- `const ticksPerStep = ticksPerBeat / 4`. -/
def ticksPerStep : ℕ := ticksPerBeat / 4

/-- The `flatMap` of `handleExportMidi`: each canonical event becomes an
`on` sub-event at `startTick = step * ticksPerStep` with velocity
`Math.round(velocity * 127)` and an `off` sub-event at
`startTick + durationTicks` with velocity 0. -/
def trackSubEvents (events : List SequencerEvent) : List MidiSubEvent :=
  events.flatMap fun event =>
    [ { tick := event.step * ticksPerStep, type := SubType.on,
        note := event.note, velocity := round (event.velocity * 127) },
      { tick := event.step * ticksPerStep + event.durationSteps * ticksPerStep,
        type := SubType.off, note := event.note, velocity := 0 } ]

/-- The comparator passed to `events.sort` in `handleExportMidi`: ticks
ascending, and at equal ticks `off` sorts before `on`. -/
def midiCompare (a b : MidiSubEvent) : ℤ :=
  if a.tick = b.tick then
    if a.type = b.type then 0
    else if a.type = SubType.off then -1 else 1
  else (a.tick : ℤ) - (b.tick : ℤ)

/-- The sort of the per-track sub-event list.  JavaScript's `Array.sort` is
a stable sort agreeing with the comparator; we embed it as a stable merge
sort with `le a b ↔ midiCompare a b ≤ 0`. -/
def sortSubEvents (events : List MidiSubEvent) : List MidiSubEvent :=
  events.mergeSort fun a b => decide (midiCompare a b ≤ 0)

/-- Replace the first occurrence of `pat` in a character list by `repl`
(the semantics of JavaScript's `String.prototype.replace` with a string
pattern). -/
def replaceFirst : List Char → List Char → List Char → List Char
  | [], _, _ => []
  | c :: cs, pat, repl =>
    if pat.isPrefixOf (c :: cs) then repl ++ (c :: cs).drop pat.length
    else c :: replaceFirst cs pat repl

/-- `noteLabelToMidi`: `label.toLowerCase().replace("#", "#")`.  The labels
are ASCII, so JavaScript's `toLowerCase` is per-character lowering; the
`replace` call substitutes the first "#" by "#" (an identity rewrite). -/
def noteLabelToMidi (label : String) : String :=
  ⟨replaceFirst (label.data.map Char.toLower) "#".data "#".data⟩

/-- One call to the external MIDI writer: `noteOn`/`noteOff` with the
note-name string, the delta ticks since the previous call, and the
velocity (channel is always 0 in the source and is omitted). -/
structure WriterCall where
  type : SubType
  note : String
  delta : ℤ
  velocity : ℤ
deriving DecidableEq, Repr

/-- The delta-time emission loop of `handleExportMidi`: the cursor
`lastTick` starts at 0; each sub-event is emitted with
`delta = tick - lastTick` and the cursor becomes its tick. -/
def emitCalls : List MidiSubEvent → ℤ → List WriterCall
  | [], _ => []
  | event :: rest, lastTick =>
    { type := event.type, note := noteLabelToMidi event.note,
      delta := (event.tick : ℤ) - lastTick, velocity := event.velocity } ::
      emitCalls rest (event.tick : ℤ)

/-- The full per-track note stream of `handleExportMidi`: extract, expand
to sub-events, sort, delta-encode from cursor 0. -/
def handleExportTrack (pattern : TrackPattern) : List WriterCall :=
  emitCalls (sortSubEvents (trackSubEvents (extractTrackEvents pattern))) 0

/-- Decoder for delta-time streams, following the spec's round-trip
property: the running sums of the deltas, in emission order. -/
def decodeDeltas : List ℤ → ℤ → List ℤ
  | [], _ => []
  | d :: ds, acc => (acc + d) :: decodeDeltas ds (acc + d)

section MidiLemmas

/-- Sort key equivalent to the comparator: ticks are doubled and `on`
sub-events get an extra unit, so `off` sorts first at equal ticks. -/
def subKey (e : MidiSubEvent) : ℕ :=
  2 * e.tick + (if e.type = SubType.on then 1 else 0)

theorem midiCompare_le_iff (a b : MidiSubEvent) :
    midiCompare a b ≤ 0 ↔ subKey a ≤ subKey b := by
  unfold midiCompare subKey
  by_cases ht : a.tick = b.tick
  · rw [if_pos ht, ht]
    by_cases hty : a.type = b.type
    · rw [if_pos hty, hty]
      simp
    · rw [if_neg hty]
      cases ha : a.type <;> cases hb : b.type <;> simp_all
  · rw [if_neg ht]
    have hne : a.tick ≠ b.tick := ht
    cases ha : a.type <;> cases hb : b.type <;> simp_all <;> omega

theorem sortLe_trans (a b c : MidiSubEvent)
    (hab : decide (midiCompare a b ≤ 0) = true)
    (hbc : decide (midiCompare b c ≤ 0) = true) :
    decide (midiCompare a c ≤ 0) = true := by
  rw [decide_eq_true_eq, midiCompare_le_iff] at *
  omega

theorem sortLe_total (a b : MidiSubEvent) :
    (decide (midiCompare a b ≤ 0) || decide (midiCompare b a ≤ 0)) = true := by
  rw [Bool.or_eq_true, decide_eq_true_eq, decide_eq_true_eq,
    midiCompare_le_iff, midiCompare_le_iff]
  omega

theorem sortSubEvents_pairwise (events : List MidiSubEvent) :
    (sortSubEvents events).Pairwise fun a b => subKey a ≤ subKey b := by
  have h := List.sorted_mergeSort sortLe_trans sortLe_total events
  exact h.imp fun hab => by
    rw [decide_eq_true_eq, midiCompare_le_iff] at hab
    exact hab

theorem sortSubEvents_perm (events : List MidiSubEvent) :
    (sortSubEvents events).Perm events :=
  List.mergeSort_perm events _

theorem subKey_tick_le (a b : MidiSubEvent) (h : subKey a ≤ subKey b) :
    a.tick ≤ b.tick := by
  unfold subKey at h
  rcases ha : a.type <;> rcases hb : b.type <;> rw [ha, hb] at h <;>
    simp at h <;> omega

theorem subKey_tie (a b : MidiSubEvent) (h : subKey a ≤ subKey b)
    (ht : a.tick = b.tick) (hty : a.type = SubType.on) :
    b.type = SubType.on := by
  unfold subKey at h
  rw [ht, hty] at h
  rcases hb : b.type
  · rfl
  · rw [hb] at h
    simp at h

theorem emitCalls_note (events : List MidiSubEvent) (t : ℤ) :
    ∀ c ∈ emitCalls events t, ∃ s ∈ events, c.note = noteLabelToMidi s.note := by
  induction events generalizing t with
  | nil =>
    intro c hc
    simp [emitCalls] at hc
  | cons e es ih =>
    intro c hc
    rw [emitCalls, List.mem_cons] at hc
    rcases hc with hc | hc
    · exact ⟨e, List.mem_cons_self e es, by rw [hc]⟩
    · obtain ⟨s, hs, hnote⟩ := ih (e.tick : ℤ) c hc
      exact ⟨s, List.mem_cons_of_mem e hs, hnote⟩

theorem decodeDeltas_emitCalls (events : List MidiSubEvent) (t : ℤ) :
    decodeDeltas ((emitCalls events t).map fun c => c.delta) t =
      events.map fun e => (e.tick : ℤ) := by
  induction events generalizing t with
  | nil => simp [emitCalls, decodeDeltas]
  | cons e es ih =>
    rw [emitCalls, List.map_cons, decodeDeltas, List.map_cons]
    have h : t + ((e.tick : ℤ) - t) = (e.tick : ℤ) := by ring
    rw [h, ih]

theorem emitCalls_delta_nonneg (events : List MidiSubEvent)
    (hs : events.Pairwise fun a b => a.tick ≤ b.tick) :
    ∀ (t : ℤ), (∀ e ∈ events, t ≤ (e.tick : ℤ)) →
      ∀ c ∈ emitCalls events t, 0 ≤ c.delta := by
  induction events with
  | nil =>
    intro t _ c hc
    simp [emitCalls] at hc
  | cons e es ih =>
    intro t ht c hc
    rw [List.pairwise_cons] at hs
    rw [emitCalls, List.mem_cons] at hc
    rcases hc with hc | hc
    · rw [hc]
      have := ht e (List.mem_cons_self e es)
      simp only
      omega
    · refine ih hs.2 (e.tick : ℤ) ?_ c hc
      intro b hb
      exact_mod_cast Int.ofNat_le.mpr (hs.1 b hb)

theorem replaceFirst_self (cs pat : List Char) :
    replaceFirst cs pat pat = cs := by
  induction cs with
  | nil => rfl
  | cons c cs ih =>
    rw [replaceFirst]
    by_cases h : pat.isPrefixOf (c :: cs)
    · rw [if_pos h]
      rw [List.isPrefixOf_iff_prefix] at h
      exact List.prefix_iff_eq_append.mp h
    · rw [if_neg h, ih]

theorem noteLabelToMidi_toLower (label : String) :
    noteLabelToMidi label = ⟨label.data.map Char.toLower⟩ := by
  rw [noteLabelToMidi, replaceFirst_self]

end MidiLemmas

section StoreAndPlaybackLemmas

theorem mapIdx_eq_self (l : List α) (d : α) (f : ℕ → α → α)
    (h : ∀ i, i < l.length → f i (l.getD i d) = l.getD i d) :
    l.mapIdx f = l := by
  induction l generalizing f with
  | nil => simp
  | cons a as ih =>
    rw [List.mapIdx_cons]
    have h0 : f 0 a = a := by simpa using h 0 (by simp)
    rw [h0]
    congr 1
    apply ih
    intro i hi
    have := h (i + 1) (by simpa using Nat.succ_lt_succ hi)
    simpa using this

theorem getD_mem_of_lt (l : List α) (i : ℕ) (d : α) (h : i < l.length) :
    l.getD i d ∈ l := by
  simp only [List.getD_eq_getElem?_getD, List.getElem?_eq_getElem h,
    Option.getD_some]
  exact List.getElem_mem h

theorem scanRow_eq_nil_of_inactive (note : String) (row : List Cell)
    (h : ∀ cell ∈ row, cell.active = false) :
    ∀ s, scanRow note row s = [] := by
  induction row with
  | nil => exact fun s => scanRow_nil note s
  | cons c cs ih =>
    intro s
    rw [scanRow_cons, if_neg ?_]
    · exact ih (fun cell hc => h cell (List.mem_cons_of_mem c hc)) (s + 1)
    · rw [h c (List.mem_cons_self c cs)]
      simp

theorem setupPlaybackAlloc_foldl (tracks : List TrackState) :
    ∀ st : PlaybackAlloc,
      (tracks.foldl setupPlaybackStep st).synths =
        st.synths ++ (tracks.filter fun t => !t.muted).map (fun t => t.id) ∧
      (tracks.foldl setupPlaybackStep st).parts =
        st.parts ++ (tracks.filter fun t =>
          !t.muted && !(extractTrackEvents t.pattern).isEmpty).map
          (fun t => extractTrackEvents t.pattern) := by
  induction tracks with
  | nil => intro st; simp
  | cons t ts ih =>
    intro st
    rw [List.foldl_cons, List.filter_cons, List.filter_cons]
    cases hm : t.muted with
    | true =>
      have hstep : setupPlaybackStep st t = st := by
        rw [setupPlaybackStep, if_pos hm]
      rw [hstep]
      obtain ⟨ih1, ih2⟩ := ih st
      refine ⟨?_, ?_⟩
      · rw [ih1]
        simp [hm]
      · rw [ih2]
        simp [hm]
    | false =>
      cases he : (extractTrackEvents t.pattern).isEmpty with
      | true =>
        have hstep : setupPlaybackStep st t =
            { st with synths := st.synths ++ [t.id] } := by
          rw [setupPlaybackStep, if_neg (by simp [hm]), if_pos he]
        rw [hstep]
        obtain ⟨ih1, ih2⟩ := ih { st with synths := st.synths ++ [t.id] }
        refine ⟨?_, ?_⟩
        · rw [ih1]
          simp [hm]
        · rw [ih2]
          simp [hm, he]
      | false =>
        have hstep : setupPlaybackStep st t =
            { st with
              synths := st.synths ++ [t.id],
              parts := st.parts ++ [extractTrackEvents t.pattern] } := by
          rw [setupPlaybackStep, if_neg (by simp [hm]), if_neg (by simp [he])]
        rw [hstep]
        obtain ⟨ih1, ih2⟩ := ih { st with
          synths := st.synths ++ [t.id],
          parts := st.parts ++ [extractTrackEvents t.pattern] }
        refine ⟨?_, ?_⟩
        · rw [ih1]
          simp [hm]
        · rw [ih2]
          simp [hm, he]

end StoreAndPlaybackLemmas

section Fixtures

/-- An unmuted track whose single-row pattern has no active cell. -/
def emptyPatternTrack : TrackState :=
  { id := "t1", name := "Track 1", instrument := "dream-pad",
    pattern := [[{ active := false, velocity := none }]],
    volume := -8, muted := false }

/-- A one-row, two-step pattern with one active cell. -/
def patternC2 : TrackPattern :=
  [[{ active := true, velocity := some 0.9 },
    { active := false, velocity := none }]]

/-- A one-row, one-step pattern with one active cell at default velocity. -/
def patternC3 : TrackPattern :=
  [[{ active := true, velocity := some 0.8 }]]

/-- A row of 8 steps, active exactly at steps 2, 3, 4 and 7. -/
def exampleRow : List Cell :=
  [{ active := false, velocity := none }, { active := false, velocity := none },
   { active := true, velocity := some 0.7 },
   { active := true, velocity := some 0.9 },
   { active := true, velocity := none }, { active := false, velocity := none },
   { active := false, velocity := none },
   { active := true, velocity := some 0.5 }]

/-- A pattern holding `exampleRow` as its only row. -/
def examplePattern : TrackPattern := [exampleRow]

/-- A one-cell pattern with a tuned velocity of one half. -/
def patternC6 : TrackPattern :=
  [[{ active := true, velocity := some (1 / 2) }]]

/-- A one-cell pattern used to exercise the export pipeline. -/
def patternC10 : TrackPattern :=
  [[{ active := true, velocity := some 0.8 }]]

end Fixtures

/-- C1 (counterexample): the source allocates the synthesizer voice before
checking the extracted events, so an unmuted track whose pattern has zero
active cells still gets a voice (`synths = ["t1"]`), contradicting the
claim that tracks with zero events allocate no voice. -/
theorem claim_C1_counterexample :
    emptyPatternTrack.muted = false ∧
    extractTrackEvents emptyPatternTrack.pattern = [] ∧
    (setupPlaybackAlloc [emptyPatternTrack]).synths = ["t1"] := by
  have hex : extractTrackEvents
      [[{ active := false, velocity := none }]] = [] := by
    simp [extractTrackEvents, List.mapIdx_cons, List.mapIdx_nil, scanRow_cons,
      scanRow_nil]
  refine ⟨rfl, hex, ?_⟩
  simp [setupPlaybackAlloc, setupPlaybackStep, emptyPatternTrack, hex]

/-- C1 (amended): during playback setup a voice is allocated for exactly the
unmuted tracks — whether or not they have events — while a scheduled part is
created for exactly the unmuted tracks with at least one extracted event;
muted tracks allocate nothing. -/
theorem claim_C1_amended (tracks : List TrackState) :
    (setupPlaybackAlloc tracks).synths =
      (tracks.filter fun t => !t.muted).map (fun t => t.id) ∧
    (setupPlaybackAlloc tracks).parts =
      (tracks.filter fun t =>
        !t.muted && !(extractTrackEvents t.pattern).isEmpty).map
        fun t => extractTrackEvents t.pattern := by
  have h := setupPlaybackAlloc_foldl tracks { synths := [], parts := [] }
  rw [setupPlaybackAlloc]
  simpa using h

/-- C2 (counterexample): calling `toggleCell` with row index 1 on a
single-row pattern is not rejected as an error — the call succeeds and
silently returns the pattern unchanged. -/
theorem claim_C2_counterexample :
    patternC2.length = 1 ∧ toggleCell patternC2 1 0 none = patternC2 :=
  ⟨rfl, rfl⟩

/-- C2 (amended): for every pattern, calling `toggleCell` with an
out-of-range row or step index silently leaves the pattern unchanged; no
error is signalled and no clamping occurs. -/
theorem claim_C2_amended (p : TrackPattern) (row step : ℕ)
    (force : Option Bool)
    (h : p.length ≤ row ∨ (p.getD row []).length ≤ step) :
    toggleCell p row step force = p := by
  rw [toggleCell]
  apply mapIdx_eq_self p []
  intro i hi
  dsimp only
  apply mapIdx_eq_self (p.getD i []) cellDefault
  intro j hj
  dsimp only
  rcases h with h | h
  · rw [if_neg (by rintro ⟨hrow, -⟩; omega)]
  · rw [if_neg (by rintro ⟨hrow, hstep⟩; rw [hrow] at hj; omega)]

/-- C2 (witness): the amended statement at a concrete out-of-range call. -/
theorem claim_C2_witness :
    toggleCell patternC2 5 0 (some true) = patternC2 :=
  claim_C2_amended patternC2 5 0 (some true) (Or.inl (by decide))

/-- Evaluation of the export pipeline on `patternC3`. -/
theorem exportC3_eval :
    handleExportTrack patternC3 =
      [{ type := SubType.on, note := noteLabelToMidi "C5", delta := 0,
         velocity := round ((0.8 : ℚ) * 127) },
       { type := SubType.off, note := noteLabelToMidi "C5", delta := 32,
         velocity := 0 }] := by
  have h1 : extractTrackEvents patternC3 =
      [{ step := 0, durationSteps := 1, note := "C5", velocity := 0.8 }] := by
    simp [patternC3, extractTrackEvents, List.mapIdx_cons, List.mapIdx_nil,
      scanRow_cons, scanRow_nil, takeActiveLen, NOTE_NAMES]
  have h2 : trackSubEvents
      [{ step := 0, durationSteps := 1, note := "C5", velocity := 0.8 }] =
      [{ tick := 0, type := SubType.on, note := "C5",
         velocity := round ((0.8 : ℚ) * 127) },
       { tick := 32, type := SubType.off, note := "C5", velocity := 0 }] := by
    simp [trackSubEvents, ticksPerStep, ticksPerBeat]
  have h3 : sortSubEvents
      [{ tick := 0, type := SubType.on, note := "C5",
         velocity := round ((0.8 : ℚ) * 127) },
       { tick := 32, type := SubType.off, note := "C5", velocity := 0 }] =
      [{ tick := 0, type := SubType.on, note := "C5",
         velocity := round ((0.8 : ℚ) * 127) },
       { tick := 32, type := SubType.off, note := "C5", velocity := 0 }] := by
    rw [sortSubEvents]
    exact List.mergeSort_of_sorted (by decide)
  rw [handleExportTrack, h1, h2, h3]
  simp [emitCalls]

/-- C3 (counterexample): the extracted event for `patternC3` carries the
pitch label "C5", but the labels handed to the writer's noteOn/noteOff are
"c5" — `noteLabelToMidi` lowercases the label, so it is not passed through
identically. -/
theorem claim_C3_counterexample :
    (extractTrackEvents patternC3).map (fun e => e.note) = ["C5"] ∧
    (handleExportTrack patternC3).map (fun c => c.note) = ["c5", "c5"] ∧
    ("c5" : String) ≠ "C5" := by
  refine ⟨?_, ?_, by decide⟩
  · simp [patternC3, extractTrackEvents, List.mapIdx_cons, List.mapIdx_nil,
      scanRow_cons, scanRow_nil, takeActiveLen, NOTE_NAMES]
  · rw [exportC3_eval]
    have h : noteLabelToMidi "C5" = "c5" := by decide
    simp [h]

/-- C3 (amended): for every pattern, the pitch label handed to the MIDI
writer's noteOn/noteOff calls is the event's pitch label lowercased
character-wise (the "#" replacement in `noteLabelToMidi` is an identity),
not the unmodified label. -/
theorem claim_C3_amended (p : TrackPattern) (c : WriterCall)
    (h : c ∈ handleExportTrack p) :
    ∃ e ∈ extractTrackEvents p,
      c.note = ⟨e.note.data.map Char.toLower⟩ := by
  rw [handleExportTrack] at h
  obtain ⟨s, hs, hnote⟩ := emitCalls_note _ 0 c h
  rw [(sortSubEvents_perm _).mem_iff] at hs
  rw [trackSubEvents, List.mem_flatMap] at hs
  obtain ⟨e, he, hse⟩ := hs
  have hsnote : s.note = e.note := by
    simp only [List.mem_cons, List.not_mem_nil, or_false] at hse
    rcases hse with rfl | rfl <;> rfl
  exact ⟨e, he, by rw [hnote, hsnote, noteLabelToMidi_toLower]⟩

/-- C3 (witness): the amended statement at a concrete exported call. -/
theorem claim_C3_witness :
    ∃ e ∈ extractTrackEvents patternC3,
      ({ type := SubType.on, note := noteLabelToMidi "C5", delta := 0,
         velocity := round ((0.8 : ℚ) * 127) } : WriterCall).note =
        ⟨e.note.data.map Char.toLower⟩ :=
  claim_C3_amended patternC3 _
    (by rw [exportC3_eval]; exact List.mem_cons_self _ _)

/-- C4: the row scan emits exactly one event per maximal run of contiguous
active cells — the `(startStep, durationSteps)` pairs of a row's events are
precisely the maximal runs, with pairwise distinct (strictly increasing)
start steps; a row active exactly at steps 2, 3, 4 and 7 yields exactly the
events `(2, 3)` and `(7, 1)`; and a pattern with zero active cells yields
the empty event sequence. -/
theorem claim_C4 :
    (∀ (row : List Cell) (note : String),
      (∀ p l, (p, l) ∈ (scanRow note row 0).map
          (fun e => (e.step, e.durationSteps)) ↔ MaxRunAt row p l) ∧
      ((scanRow note row 0).map
        (fun e => (e.step, e.durationSteps))).Pairwise
          (fun a b => a.1 < b.1)) ∧
    (extractTrackEvents examplePattern).map
      (fun e => (e.step, e.durationSteps)) = [(2, 3), (7, 1)] ∧
    (∀ p : TrackPattern, (∀ row ∈ p, ∀ cell ∈ row, cell.active = false) →
      extractTrackEvents p = []) := by
  refine ⟨fun row note => ⟨fun p l => ?_, ?_⟩, ?_, fun p hp => ?_⟩
  · rw [scanRow_mem_iff]
    constructor
    · rintro ⟨j, hj, h⟩
      have hpj : p = j := by omega
      rwa [hpj]
    · intro h
      exact ⟨p, by omega, h⟩
  · rw [List.pairwise_map]
    refine List.Pairwise.imp_of_mem ?_ (scanRow_pairwise note row 0)
    intro a b ha _ hr
    have hd := scanRow_dur_pos note row 0 a ha
    simp only
    omega
  · simp [examplePattern, exampleRow, extractTrackEvents, List.mapIdx_cons,
      List.mapIdx_nil, scanRow_cons, scanRow_nil, takeActiveLen, NOTE_NAMES]
  · rw [extractTrackEvents, List.flatten_eq_nil_iff]
    intro L hL
    rw [mapIdx_eq_range_map _ _ []] at hL
    rw [List.mem_map] at hL
    obtain ⟨i, hi, rfl⟩ := hL
    apply scanRow_eq_nil_of_inactive
    intro cell hcell
    exact hp (p.getD i []) (getD_mem_of_lt p i [] (List.mem_range.mp hi))
      cell hcell

/-- C4 (witness): the all-inactive conjunct at a concrete pattern. -/
theorem claim_C4_witness :
    extractTrackEvents [[{ active := false, velocity := some 0.8 }]] = [] :=
  claim_C4.2.2 [[{ active := false, velocity := some 0.8 }]] (by decide)

/-- C5: in the sorted per-track sub-event list, an `on` sub-event never
precedes an `off` sub-event at the same tick (so every same-tick `off` is
emitted before the `on`); in particular the two events `(start 4, dur 2)`
and `(start 6, dur 2)` encode with the `off` at tick 192 before the `on`
at tick 192. -/
theorem claim_C5 :
    (∀ events : List MidiSubEvent,
      (sortSubEvents events).Pairwise fun a b =>
        ¬(a.tick = b.tick ∧ a.type = SubType.on ∧ b.type = SubType.off)) ∧
    sortSubEvents (trackSubEvents
      [{ step := 4, durationSteps := 2, note := "C4", velocity := 0.8 },
       { step := 6, durationSteps := 2, note := "C4", velocity := 0.8 }]) =
      [{ tick := 128, type := SubType.on, note := "C4",
         velocity := round ((0.8 : ℚ) * 127) },
       { tick := 192, type := SubType.off, note := "C4", velocity := 0 },
       { tick := 192, type := SubType.on, note := "C4",
         velocity := round ((0.8 : ℚ) * 127) },
       { tick := 256, type := SubType.off, note := "C4", velocity := 0 }] := by
  constructor
  · intro events
    refine (sortSubEvents_pairwise events).imp ?_
    intro a b hab
    rintro ⟨ht, hon, hoff⟩
    have hb := subKey_tie a b hab ht hon
    rw [hoff] at hb
    exact SubType.noConfusion hb
  · have h2 : trackSubEvents
        [{ step := 4, durationSteps := 2, note := "C4", velocity := 0.8 },
         { step := 6, durationSteps := 2, note := "C4", velocity := 0.8 }] =
        [{ tick := 128, type := SubType.on, note := "C4",
           velocity := round ((0.8 : ℚ) * 127) },
         { tick := 192, type := SubType.off, note := "C4", velocity := 0 },
         { tick := 192, type := SubType.on, note := "C4",
           velocity := round ((0.8 : ℚ) * 127) },
         { tick := 256, type := SubType.off, note := "C4",
           velocity := 0 }] := by
      simp [trackSubEvents, ticksPerStep, ticksPerBeat]
    rw [h2, sortSubEvents]
    exact List.mergeSort_of_sorted (by decide)

/-- C6: every event extracted from a pattern takes its velocity from the
cell at its own start step — the first cell of its run — with the source's
`?? 0.8` default; the velocities of the other cells of the run play no
role. -/
theorem claim_C6 (p : TrackPattern) (e : SequencerEvent)
    (h : e ∈ extractTrackEvents p) :
    ∃ row ∈ p, activeAt row e.step = true ∧
      e.velocity = ((row.getD e.step cellDefault).velocity).getD 0.8 := by
  obtain ⟨i, hi, hmem⟩ := mem_extractTrackEvents p e h
  obtain ⟨-, hact, hvel⟩ := scanRow_velocity _ _ 0 e hmem
  rw [Nat.sub_zero] at hact hvel
  exact ⟨p.getD i [], getD_mem_of_lt p i [] hi, hact, hvel⟩

/-- C6 (witness): the event extracted from a cell tuned to velocity one
half carries exactly that velocity. -/
theorem claim_C6_witness :
    ∃ row ∈ patternC6, activeAt row 0 = true ∧
      (1 / 2 : ℚ) = ((row.getD 0 cellDefault).velocity).getD 0.8 :=
  claim_C6 patternC6
    { step := 0, durationSteps := 1, note := "C5", velocity := 1 / 2 }
    (by simp [patternC6, extractTrackEvents, List.mapIdx_cons,
      List.mapIdx_nil, scanRow_cons, scanRow_nil, takeActiveLen, NOTE_NAMES])

/-- C7: the delta-time encoding is the inverse of cumulative summation —
decoding the emitted deltas by running sums from 0 reconstructs the sorted
absolute-tick sequence exactly. -/
theorem claim_C7 (events : List MidiSubEvent)
    (_h : events.Pairwise fun a b => a.tick ≤ b.tick) :
    decodeDeltas ((emitCalls events 0).map fun c => c.delta) 0 =
      events.map fun e => (e.tick : ℤ) :=
  decodeDeltas_emitCalls events 0

/-- C7 (witness): the round trip at a concrete sorted tick sequence. -/
theorem claim_C7_witness :
    decodeDeltas ((emitCalls
      [{ tick := 0, type := SubType.on, note := "C5", velocity := 102 },
       { tick := 32, type := SubType.off, note := "C5", velocity := 0 }]
      0).map fun c => c.delta) 0 =
      ([{ tick := 0, type := SubType.on, note := "C5", velocity := 102 },
        { tick := 32, type := SubType.off, note := "C5", velocity := 0 }] :
        List MidiSubEvent).map fun e => (e.tick : ℤ) :=
  claim_C7 _ (by decide)

/-- Unfolding of the sub-event expansion with the tick resolution computed
out: 32 ticks per step. -/
theorem trackSubEvents_eq (events : List SequencerEvent) :
    trackSubEvents events = events.flatMap fun e =>
      [{ tick := e.step * 32, type := SubType.on, note := e.note,
         velocity := round (e.velocity * 127) },
       { tick := (e.step + e.durationSteps) * 32, type := SubType.off,
         note := e.note, velocity := 0 }] := by
  induction events with
  | nil => rfl
  | cons e es ih =>
    have hcons : trackSubEvents (e :: es) =
        [{ tick := e.step * ticksPerStep, type := SubType.on, note := e.note,
           velocity := round (e.velocity * 127) },
         { tick := e.step * ticksPerStep + e.durationSteps * ticksPerStep,
           type := SubType.off, note := e.note, velocity := 0 }] ++
          trackSubEvents es := rfl
    rw [hcons, List.flatMap_cons, ih]
    congr 1
    simp [ticksPerStep, ticksPerBeat, Nat.add_mul]

/-- C8: each extracted event yields exactly two sub-events — an `on` at
tick `startStep * 32` with velocity `round(velocity * 127)` and an `off`
at tick `(startStep + durationSteps) * 32` with velocity 0 — at the fixed
resolution of 128 ticks per beat and 4 steps per beat. -/
theorem claim_C8 (p : TrackPattern) :
    trackSubEvents (extractTrackEvents p) =
      (extractTrackEvents p).flatMap fun e =>
        [{ tick := e.step * 32, type := SubType.on, note := e.note,
           velocity := round (e.velocity * 127) },
         { tick := (e.step + e.durationSteps) * 32, type := SubType.off,
           note := e.note, velocity := 0 }] :=
  trackSubEvents_eq (extractTrackEvents p)

/-- C9: the extracted event sequence is the concatenation of the per-row
event lists in row order (row 0 first, then row 1, and so on), and within
any row the events are strictly increasing in start step and non-overlapping
(each event ends at or before the next one's start). -/
theorem claim_C9 (p : TrackPattern) :
    extractTrackEvents p =
      ((List.range p.length).map fun i =>
        scanRow (NOTE_NAMES.getD i "") (p.getD i []) 0).flatten ∧
    ∀ (note : String) (row : List Cell),
      (scanRow note row 0).Pairwise fun a b =>
        a.step < b.step ∧ a.step + a.durationSteps ≤ b.step := by
  constructor
  · rw [extractTrackEvents, mapIdx_eq_range_map _ _ []]
  · intro note row
    refine List.Pairwise.imp_of_mem ?_ (scanRow_pairwise note row 0)
    intro a b ha _ hr
    have hd := scanRow_dur_pos note row 0 a ha
    exact ⟨by omega, hr⟩

/-- C10: every delta handed to the MIDI writer during export is
non-negative: the sorted sub-event list has non-decreasing ticks, so the
running cursor never exceeds the next emitted tick. -/
theorem claim_C10 (p : TrackPattern) (c : WriterCall)
    (h : c ∈ handleExportTrack p) : 0 ≤ c.delta := by
  rw [handleExportTrack] at h
  refine emitCalls_delta_nonneg _ ?_ 0 ?_ c h
  · exact (sortSubEvents_pairwise _).imp fun hab => subKey_tick_le _ _ hab
  · intro e _
    exact Int.natCast_nonneg e.tick

/-- Evaluation of the export pipeline on `patternC10`. -/
theorem exportC10_eval :
    handleExportTrack patternC10 =
      [{ type := SubType.on, note := noteLabelToMidi "C5", delta := 0,
         velocity := round ((0.8 : ℚ) * 127) },
       { type := SubType.off, note := noteLabelToMidi "C5", delta := 32,
         velocity := 0 }] := by
  have h1 : extractTrackEvents patternC10 =
      [{ step := 0, durationSteps := 1, note := "C5", velocity := 0.8 }] := by
    simp [patternC10, extractTrackEvents, List.mapIdx_cons, List.mapIdx_nil,
      scanRow_cons, scanRow_nil, takeActiveLen, NOTE_NAMES]
  have h2 : trackSubEvents
      [{ step := 0, durationSteps := 1, note := "C5", velocity := 0.8 }] =
      [{ tick := 0, type := SubType.on, note := "C5",
         velocity := round ((0.8 : ℚ) * 127) },
       { tick := 32, type := SubType.off, note := "C5", velocity := 0 }] := by
    simp [trackSubEvents, ticksPerStep, ticksPerBeat]
  have h3 : sortSubEvents
      [{ tick := 0, type := SubType.on, note := "C5",
         velocity := round ((0.8 : ℚ) * 127) },
       { tick := 32, type := SubType.off, note := "C5", velocity := 0 }] =
      [{ tick := 0, type := SubType.on, note := "C5",
         velocity := round ((0.8 : ℚ) * 127) },
       { tick := 32, type := SubType.off, note := "C5", velocity := 0 }] := by
    rw [sortSubEvents]
    exact List.mergeSort_of_sorted (by decide)
  rw [handleExportTrack, h1, h2, h3]
  simp [emitCalls]

/-- C10 (witness): the first call exported from `patternC10` has a
non-negative delta. -/
theorem claim_C10_witness :
    (0 : ℤ) ≤ ({ type := SubType.on, note := noteLabelToMidi "C5",
                 delta := 0,
                 velocity := round ((0.8 : ℚ) * 127) } : WriterCall).delta :=
  claim_C10 patternC10 _
    (by rw [exportC10_eval]; exact List.mem_cons_self _ _)

end Sequencer
